import Mathlib

/-
Verification development for the Go board engine (board/group/liberty/capture
core).  The definitions below are shallow embeddings of the Rust sources:

  * `Stone`, `Stone.not`        — src/stone.rs
  * `Loc`, `Loc.neighbours`     — src/location.rs (`Location`, `Neighbours`)
  * `Group`, `Group.neighbours` — src/group.rs
  * `fringe`, `expandAux`,
    `groupListAux`, `groupList` — src/group.rs (`GroupIterator::next`, driven
                                  to completion; the `HashMap` working set is
                                  embedded as an association list, and the
                                  unspecified `HashMap` iteration order is
                                  realised as list order; the loop is given
                                  explicit fuel, shown sufficient later)
  * `Board` and its operations  — src/board.rs (`HashMap<Location, Stone>`
                                  embedded as an association list with
                                  insert/remove modelled by cons/filter)
  * `stoneChar`, `boardToLines` — src/board.rs (`impl Display for Board`,
                                  with the newline splitting factored out:
                                  one `List Char` per printed row)
  * `charCell`, `boardFromLines`— src/board.rs (`impl FromStr for Board`,
                                  taking the `str::lines` output directly)
-/

namespace GoBoard

/-- Colour of a stone (src/stone.rs `enum Stone`). -/
inductive Stone where
  | black : Stone
  | white : Stone
deriving DecidableEq

/-- `impl Not for Stone` from src/stone.rs. -/
def Stone.not : Stone → Stone
  | Stone.black => Stone.white
  | Stone.white => Stone.black

/-- A board coordinate (src/location.rs `struct Location`). -/
structure Loc where
  col : Nat
  row : Nat
deriving DecidableEq

/-- The neighbour-candidate sequence produced by the `Neighbours` iterator in
src/location.rs: left only when `col > 0`, right unconditionally, up only when
`row > 0`, down unconditionally, in that order, with no upper-bound clamping. -/
def Loc.neighbours (l : Loc) : List Loc :=
  (if 0 < l.col then [⟨l.col - 1, l.row⟩] else []) ++
  ([⟨l.col + 1, l.row⟩] ++
  ((if 0 < l.row then [⟨l.col, l.row - 1⟩] else []) ++
  [⟨l.col, l.row + 1⟩]))

/-- `a` and `b` are horizontally or vertically adjacent: `b` is one of the
neighbour candidates of `a`. -/
def Loc.adj (a b : Loc) : Prop := b ∈ a.neighbours

instance (a b : Loc) : Decidable (Loc.adj a b) :=
  inferInstanceAs (Decidable (b ∈ a.neighbours))

/-- A maximal connected single-coloured set of stones
(src/group.rs `struct Group`). -/
structure Group where
  colour : Stone
  members : Finset Loc

instance : DecidableEq Group := fun a b =>
  decidable_of_iff (a.colour = b.colour ∧ a.members = b.members)
    (by cases a; cases b; simp)

/-- `Group::neighbours` from src/group.rs: the union of the members' neighbour
candidates with the group's own members removed. -/
def Group.neighbours (g : Group) : Finset Loc :=
  (g.members.biUnion (fun l => l.neighbours.toFinset)) \ g.members

/-- The fringe of new neighbour locations computed inside the loop of
`GroupIterator::next` (src/group.rs): neighbour candidates of the current
group that are still present in the working set with the seed's colour. -/
def fringe (stones : List (Loc × Stone)) (c : Stone) (g : Finset Loc) : Finset Loc :=
  g.biUnion (fun l => (l.neighbours.filter (fun x => (x, c) ∈ stones)).toFinset)

/-- The expansion loop of `GroupIterator::next` (src/group.rs): repeatedly
remove the current group's members from the working set, compute the fringe,
and merge it in, until the fringe is empty.  The loop is given explicit fuel;
`expandAux_fringe_empty` below shows that `stones.length` fuel always reaches
the fixed point. -/
def expandAux : Nat → List (Loc × Stone) → Stone → Finset Loc →
    Finset Loc × List (Loc × Stone)
  | 0, stones, _, g => (g, stones.filter (fun p => p.1 ∉ g))
  | fuel + 1, stones, c, g =>
      let rest := stones.filter (fun p => p.1 ∉ g)
      let n := fringe rest c g
      if n = ∅ then (g, rest) else expandAux fuel rest c (g ∪ n)

/-- Driving `GroupIterator` to completion (src/group.rs): while the working
set is non-empty, seed a group with its first stone, expand it, emit it, and
continue on the remaining stones.  Fuel-indexed; `groupList_fuel` below shows
`stones.length` fuel suffices. -/
def groupListAux : Nat → List (Loc × Stone) → List Group
  | 0, _ => []
  | _ + 1, [] => []
  | fuel + 1, (l, c) :: stones =>
      let r := expandAux ((l, c) :: stones).length ((l, c) :: stones) c {l}
      Group.mk c r.1 :: groupListAux fuel r.2

/-- The complete, consumed output of `GroupIterator` (src/group.rs
`Group::groups`). -/
def groupList (stones : List (Loc × Stone)) : List Group :=
  groupListAux stones.length stones

/-- Association-list lookup embedding `HashMap::get` on the board's
occupancy. -/
def lookupLoc (l : Loc) : List (Loc × Stone) → Option Stone
  | [] => none
  | p :: rest => if p.1 = l then some p.2 else lookupLoc l rest

/-- The board (src/board.rs `struct Board`): a size and an occupancy map,
embedded as an association list with at most one entry per key. -/
structure Board where
  size : Nat
  points : List (Loc × Stone)
deriving DecidableEq

/-- `Board::new_with_size` from src/board.rs. -/
def Board.newWithSize (size : Nat) : Board := ⟨size, []⟩

/-- `Board::validloc` from src/board.rs: `loc.row() < size && loc.col() < size`. -/
def Board.validloc (b : Board) (l : Loc) : Prop :=
  l.row < b.size ∧ l.col < b.size

instance (b : Board) (l : Loc) : Decidable (b.validloc l) :=
  inferInstanceAs (Decidable (_ ∧ _))

/-- `Board::get` from src/board.rs: pure occupancy lookup. -/
def Board.get (b : Board) (l : Loc) : Option Stone := lookupLoc l b.points

/-- `Board::add` from src/board.rs: `HashMap::insert`, embedded as removing
any entry with the same key and consing the new one.  The Rust function also
returns the previous occupant and asserts `validloc` (a panic, not a result);
callers below only reach it with a valid location. -/
def Board.add (b : Board) (l : Loc) (s : Stone) : Board :=
  ⟨b.size, (l, s) :: b.points.filter (fun p => p.1 ≠ l)⟩

/-- `Board::remove` from src/board.rs (the returned previous occupant is not
modelled; only the resulting occupancy matters here). -/
def Board.remove (b : Board) (l : Loc) : Board :=
  ⟨b.size, b.points.filter (fun p => p.1 ≠ l)⟩

/-- `Board::liberties` from src/board.rs: the group's neighbour candidates,
kept when in bounds and currently empty. -/
def Board.liberties (b : Board) (g : Group) : Finset Loc :=
  (g.neighbours.filter (fun l => b.validloc l)).filter (fun l => b.get l = none)

/-- Removal of every member of a condemned group, as done by the inner loops
of `Board::play` (src/board.rs, `for d in g.locations() { points.remove(&d) }`). -/
def Board.removeGroup (b : Board) (g : Group) : Board :=
  ⟨b.size, b.points.filter (fun p => p.1 ∉ g.members)⟩

/-- The first capture loop of `Board::play` (src/board.rs): for each opposing
group in order, if its liberty set against the current occupancy is empty,
remove all its members. -/
def Board.captureOpposite : Board → List Group → Board
  | b, [] => b
  | b, g :: gs =>
      Board.captureOpposite (if b.liberties g = ∅ then b.removeGroup g else b) gs

/-- The second capture loop of `Board::play` (src/board.rs): for each
same-coloured group in order, skip it unless it contains the played location;
if it does and its liberty set is empty, remove all its members. -/
def Board.captureSame (loc : Loc) : Board → List Group → Board
  | b, [] => b
  | b, g :: gs =>
      Board.captureSame loc
        (if loc ∈ g.members then
          (if b.liberties g = ∅ then b.removeGroup g else b)
        else b) gs

/-- `Board::play` from src/board.rs: bounds and emptiness preconditions, then
tentative placement, partition of the post-placement occupancy into groups,
capture of dead opposing groups, then self-capture of the played group. -/
def Board.play (b : Board) (loc : Loc) (s : Stone) : Bool × Board :=
  if ¬ b.validloc loc then (false, b)
  else if (b.get loc).isSome then (false, b)
  else
    let b1 := b.add loc s
    let gs := groupList b1.points
    let same := gs.filter (fun g => g.colour = s)
    let opposite := gs.filter (fun g => ¬ g.colour = s)
    let b2 := Board.captureOpposite b1 opposite
    let b3 := Board.captureSame loc b2 same
    (true, b3)

/-- `Board::groups` from src/board.rs: the flood-fill partition restricted to
the stones of one colour. -/
def Board.groups (b : Board) (colour : Stone) : List Group :=
  groupList (b.points.filter (fun p => p.2 = colour))

/-- A sequence of `Board::play` calls, each applied to the board produced by
the previous one (the shape of the `play` test in src/board.rs). -/
def playMoves : Board → List (Loc × Stone) → Board
  | b, [] => b
  | b, m :: ms => playMoves (b.play m.1 m.2).2 ms

/-- The success flags of a sequence of `Board::play` calls, each applied to
the board produced by the previous call (the `assert!` pattern of the `play`
test in src/board.rs). -/
def playFlags : Board → List (Loc × Stone) → List Bool
  | _, [] => []
  | b, m :: ms => (b.play m.1 m.2).1 :: playFlags (b.play m.1 m.2).2 ms

/-- The move sequence of the spec's concrete 5×5 scenario (also the `play`
test in src/board.rs): Black (0,0), Black (0,0) again, White (1,0),
Black (1,2), White (0,1), Black (0,2), White (1,1), Black (2,0),
White (3,3), Black (2,1), White (3,2), Black (0,0). -/
def specScenarioMoves : List (Loc × Stone) :=
  [(⟨0, 0⟩, Stone.black), (⟨0, 0⟩, Stone.black), (⟨1, 0⟩, Stone.white),
   (⟨1, 2⟩, Stone.black), (⟨0, 1⟩, Stone.white), (⟨0, 2⟩, Stone.black),
   (⟨1, 1⟩, Stone.white), (⟨2, 0⟩, Stone.black), (⟨3, 3⟩, Stone.white),
   (⟨2, 1⟩, Stone.black), (⟨3, 2⟩, Stone.white), (⟨0, 0⟩, Stone.black)]

/-- The symbol printed for a point by `impl Display for Board`
(src/board.rs). -/
def stoneChar : Option Stone → Char
  | none => '.'
  | some Stone.black => '#'
  | some Stone.white => 'O'

/-- `impl Display for Board` (src/board.rs) with the newline splitting
factored out: one list of characters per printed row, rows printed from the
highest row index down to row 0, each column as symbol-then-space. -/
def boardToLines (b : Board) : List (List Char) :=
  (List.range b.size).map (fun row =>
    (List.range b.size).flatMap
      (fun col => [stoneChar (b.get ⟨col, b.size - row - 1⟩), ' ']))

/-- The character classification of `Board::from_str` (src/board.rs):
black and white symbols, the empty-point dot, and everything else ignored. -/
def charCell (c : Char) : Option (Option Stone) :=
  if c = '#' ∨ c = 'X' ∨ c = '⚈' ∨ c = '⚉' then some (some Stone.black)
  else if c = 'O' ∨ c = 'o' ∨ c = '⚆' ∨ c = '⚇' then some (some Stone.white)
  else if c = '.' then some none
  else none

/-- The inner loop of `Board::from_str` (src/board.rs): place the cells of one
parsed row, column index counting up from `cnum`, at row `sz - 1 - rnum`. -/
def addRowCells (sz rnum : Nat) : Board → Nat → List (Option Stone) → Board
  | b, _, [] => b
  | b, cnum, cell :: rest =>
      addRowCells sz rnum
        (match cell with
          | some s => b.add ⟨cnum, sz - 1 - rnum⟩ s
          | none => b)
        (cnum + 1) rest

/-- The outer loop of `Board::from_str` (src/board.rs): place each parsed row
in turn, row index counting up from `rnum`. -/
def addRows (sz : Nat) : Board → Nat → List (List (Option Stone)) → Board
  | b, _, [] => b
  | b, rnum, row :: rest => addRows sz (addRowCells sz rnum b 0 row) (rnum + 1) rest

/-- `Board::from_str` (src/board.rs), taking the `str::lines` output directly:
parse each line, size the board as the maximum of the widest parsed row and
the number of rows, and place every parsed stone. -/
def boardFromLines (lines : List (List Char)) : Board :=
  let layout := lines.map (fun l => l.filterMap charCell)
  let w := (layout.map List.length).foldr max 0
  let sz := max w layout.length
  addRows sz (Board.newWithSize sz) 0 layout

/-- Connectivity inside a fixed set of locations: a chain of adjacency steps
whose targets stay in the set. -/
def ConnectedIn (s : Finset Loc) (a b : Loc) : Prop :=
  Relation.ReflTransGen (fun x y => y ∈ s ∧ Loc.adj x y) a b

/-- Boards reachable through the public mutating interface: construction,
setup `add` (whose `assert!(validloc)` rules out out-of-bounds setup),
`remove`, and `play`.  The read-only operations (`get`, `groups`,
`liberties`, `locations`) do not produce new boards. -/
inductive Reachable : Board → Prop where
  | new : ∀ size, Reachable (Board.newWithSize size)
  | add : ∀ b l s, Reachable b → b.validloc l → Reachable (b.add l s)
  | remove : ∀ b l, Reachable b → Reachable (b.remove l)
  | play : ∀ b l s, Reachable b → Reachable (b.play l s).2

/-
Theorems.  First a collection of shared lemmas about lookup, insertion and
filtering on the association-list occupancy, then the flood-fill partition
lemmas, then the claim theorems.
-/

theorem Stone.eq_of_ne_of_ne {a b s : Stone} (ha : a ≠ s) (hb : b ≠ s) : a = b := by
  cases a <;> cases b <;> cases s <;> simp_all

theorem lookupLoc_eq_none_iff {l : Loc} {ps : List (Loc × Stone)} :
    lookupLoc l ps = none ↔ ∀ s, (l, s) ∉ ps := by
  induction ps with
  | nil => simp [lookupLoc]
  | cons p rest ih =>
      obtain ⟨k, v⟩ := p
      by_cases h : k = l
      · subst h
        simp only [lookupLoc, if_pos rfl]
        constructor
        · intro hc; exact Option.noConfusion hc
        · intro hc; exact absurd (List.mem_cons_self (k, v) rest) (hc v)
      · simp only [lookupLoc, if_neg h, ih]
        constructor
        · intro hc s hm
          rcases List.mem_cons.mp hm with h1 | h1
          · exact h (congrArg Prod.fst h1.symm)
          · exact hc s h1
        · intro hc s hm
          exact hc s (List.mem_cons_of_mem _ hm)

theorem mem_of_lookupLoc {l : Loc} {s : Stone} {ps : List (Loc × Stone)}
    (h : lookupLoc l ps = some s) : (l, s) ∈ ps := by
  induction ps with
  | nil => simp [lookupLoc] at h
  | cons p rest ih =>
      obtain ⟨k, v⟩ := p
      by_cases hp : k = l
      · subst hp
        simp only [lookupLoc, if_pos rfl] at h
        injection h with h
        subst h
        exact List.mem_cons_self (k, v) rest
      · simp only [lookupLoc, if_neg hp] at h
        exact List.mem_cons_of_mem _ (ih h)

theorem lookupLoc_filter_key {l : Loc} {ps : List (Loc × Stone)} (f : Loc → Bool) :
    lookupLoc l (ps.filter (fun p => f p.1)) =
      if f l then lookupLoc l ps else none := by
  induction ps with
  | nil => simp [lookupLoc]
  | cons p rest ih =>
      by_cases hf : f p.1
      · rw [List.filter_cons_of_pos (by simpa using hf)]
        by_cases hp : p.1 = l
        · subst hp
          simp [lookupLoc, hf]
        · simp only [lookupLoc, if_neg hp]
          exact ih
      · rw [List.filter_cons_of_neg (by simpa using hf)]
        by_cases hp : p.1 = l
        · subst hp
          simp [lookupLoc, hf, ih]
        · simp only [lookupLoc, if_neg hp]
          exact ih

theorem get_add (b : Board) (l : Loc) (s : Stone) (x : Loc) :
    (b.add l s).get x = if x = l then some s else b.get x := by
  unfold Board.add Board.get
  by_cases hx : x = l
  · subst hx
    simp [lookupLoc]
  · have h1 : l ≠ x := fun h => hx h.symm
    simp only [lookupLoc, if_neg h1]
    have := @lookupLoc_filter_key x b.points (fun k => decide (k ≠ l))
    simp only [decide_eq_true_eq] at this
    rw [if_neg hx, this, if_pos (by simpa using hx)]

theorem get_removeGroup (b : Board) (g : Group) (x : Loc) :
    (b.removeGroup g).get x = if x ∈ g.members then none else b.get x := by
  unfold Board.removeGroup Board.get
  have := @lookupLoc_filter_key x b.points (fun k => decide (k ∉ g.members))
  simp only [decide_eq_true_eq] at this
  rw [this]
  by_cases hx : x ∈ g.members <;> simp [hx]

theorem get_remove (b : Board) (l : Loc) (x : Loc) :
    (b.remove l).get x = if x = l then none else b.get x := by
  unfold Board.remove Board.get
  have := @lookupLoc_filter_key x b.points (fun k => decide (k ≠ l))
  simp only [decide_eq_true_eq] at this
  rw [this]
  by_cases hx : x = l <;> simp [hx]

theorem size_add (b : Board) (l : Loc) (s : Stone) : (b.add l s).size = b.size := rfl

theorem size_removeGroup (b : Board) (g : Group) : (b.removeGroup g).size = b.size := rfl

theorem size_captureOpposite (b : Board) (gs : List Group) :
    (Board.captureOpposite b gs).size = b.size := by
  induction gs generalizing b with
  | nil => rfl
  | cons g gs ih =>
      unfold Board.captureOpposite
      rw [ih]
      by_cases h : b.liberties g = ∅ <;> simp [h, size_removeGroup]

theorem size_captureSame (loc : Loc) (b : Board) (gs : List Group) :
    (Board.captureSame loc b gs).size = b.size := by
  induction gs generalizing b with
  | nil => rfl
  | cons g gs ih =>
      unfold Board.captureSame
      rw [ih]
      by_cases h1 : loc ∈ g.members <;> by_cases h2 : b.liberties g = ∅ <;>
        simp [h1, h2, size_removeGroup]

theorem mem_points_captureOpposite {b : Board} {gs : List Group} {p : Loc × Stone}
    (h : p ∈ (Board.captureOpposite b gs).points) : p ∈ b.points := by
  induction gs generalizing b with
  | nil => exact h
  | cons g gs ih =>
      unfold Board.captureOpposite at h
      have h2 := ih h
      by_cases hl : b.liberties g = ∅
      · rw [if_pos hl] at h2
        exact List.mem_of_mem_filter h2
      · rwa [if_neg hl] at h2

theorem mem_points_captureSame {loc : Loc} {b : Board} {gs : List Group} {p : Loc × Stone}
    (h : p ∈ (Board.captureSame loc b gs).points) : p ∈ b.points := by
  induction gs generalizing b with
  | nil => exact h
  | cons g gs ih =>
      unfold Board.captureSame at h
      have h2 := ih h
      by_cases h1 : loc ∈ g.members
      · by_cases hl : b.liberties g = ∅
        · rw [if_pos h1, if_pos hl] at h2
          exact List.mem_of_mem_filter h2
        · rwa [if_pos h1, if_neg hl] at h2
      · rwa [if_neg h1] at h2

theorem get_none_captureOpposite {b : Board} {gs : List Group} {x : Loc}
    (h : b.get x = none) : (Board.captureOpposite b gs).get x = none := by
  induction gs generalizing b with
  | nil => exact h
  | cons g gs ih =>
      unfold Board.captureOpposite
      apply ih
      by_cases hl : b.liberties g = ∅
      · rw [if_pos hl, get_removeGroup]
        by_cases hx : x ∈ g.members <;> simp [hx, h]
      · rwa [if_neg hl]

theorem get_none_captureSame {loc : Loc} {b : Board} {gs : List Group} {x : Loc}
    (h : b.get x = none) : (Board.captureSame loc b gs).get x = none := by
  induction gs generalizing b with
  | nil => exact h
  | cons g gs ih =>
      unfold Board.captureSame
      apply ih
      by_cases h1 : loc ∈ g.members
      · by_cases hl : b.liberties g = ∅
        · rw [if_pos h1, if_pos hl, get_removeGroup]
          by_cases hx : x ∈ g.members <;> simp [hx, h]
        · rwa [if_pos h1, if_neg hl]
      · rwa [if_neg h1]

theorem mem_fringe_iff {stones : List (Loc × Stone)} {c : Stone} {g : Finset Loc}
    {x : Loc} :
    x ∈ fringe stones c g ↔ ∃ m ∈ g, x ∈ m.neighbours ∧ (x, c) ∈ stones := by
  unfold fringe
  simp only [Finset.mem_biUnion, List.mem_toFinset, List.mem_filter,
    decide_eq_true_eq]

theorem length_filter_lt {α : Type} (p : α → Bool) (l : List α) (a : α)
    (ha : a ∈ l) (hpa : ¬ p a) : (l.filter p).length < l.length := by
  induction l with
  | nil => cases ha
  | cons b t ih =>
      rcases List.mem_cons.mp ha with rfl | hat
      · rw [List.filter_cons_of_neg (by simpa using hpa)]
        exact Nat.lt_succ_of_le (List.length_filter_le p t)
      · by_cases hb : p b
        · rw [List.filter_cons_of_pos hb]
          exact Nat.succ_lt_succ (ih hat)
        · rw [List.filter_cons_of_neg (by simpa using hb)]
          exact Nat.lt_succ_of_lt (ih hat)

theorem decide_and_not_subset {α : Type} [DecidableEq α] {g r : Finset α}
    (h : g ⊆ r) (a : α) :
    (decide (a ∉ r) && decide (a ∉ g)) = decide (a ∉ r) := by
  by_cases hr : a ∈ r
  · simp [hr]
  · have hg : a ∉ g := fun hc => hr (h hc)
    simp [hr, hg]

theorem subset_expandAux (fuel : Nat) (stones : List (Loc × Stone)) (c : Stone)
    (g : Finset Loc) : g ⊆ (expandAux fuel stones c g).1 := by
  induction fuel generalizing stones g with
  | zero => exact Finset.Subset.refl g
  | succ fuel ih =>
      unfold expandAux
      by_cases hn : fringe (stones.filter (fun p => p.1 ∉ g)) c g = ∅
      · simp only [hn, if_pos]
        exact Finset.Subset.refl g
      · simp only [hn, if_neg, ite_false]
        exact fun x hx => ih _ _ (Finset.mem_union_left _ hx)

theorem mem_expandAux {fuel : Nat} {stones : List (Loc × Stone)} {c : Stone}
    {g : Finset Loc} {x : Loc} (hx : x ∈ (expandAux fuel stones c g).1) :
    x ∈ g ∨ (x, c) ∈ stones := by
  induction fuel generalizing stones g with
  | zero => exact Or.inl hx
  | succ fuel ih =>
      unfold expandAux at hx
      by_cases hn : fringe (stones.filter (fun p => p.1 ∉ g)) c g = ∅
      · simp only [hn, if_pos] at hx
        exact Or.inl hx
      · simp only [hn, if_neg, ite_false] at hx
        rcases ih hx with h1 | h1
        · rcases Finset.mem_union.mp h1 with h2 | h2
          · exact Or.inl h2
          · obtain ⟨m, _, _, hmem⟩ := mem_fringe_iff.mp h2
            exact Or.inr (List.mem_of_mem_filter hmem)
        · exact Or.inr (List.mem_of_mem_filter h1)

theorem rest_expandAux (fuel : Nat) (stones : List (Loc × Stone)) (c : Stone)
    (g : Finset Loc) :
    (expandAux fuel stones c g).2 =
      stones.filter (fun p => p.1 ∉ (expandAux fuel stones c g).1) := by
  induction fuel generalizing stones g with
  | zero => rfl
  | succ fuel ih =>
      unfold expandAux
      by_cases hn : fringe (stones.filter (fun p => p.1 ∉ g)) c g = ∅
      · simp only [hn, if_pos]
      · simp only [hn, if_neg, ite_false]
        rw [ih, List.filter_filter]
        have hsub : g ⊆ (expandAux fuel (stones.filter (fun q => q.1 ∉ g)) c
            (g ∪ fringe (stones.filter (fun q => q.1 ∉ g)) c g)).1 := fun x hx =>
          subset_expandAux _ _ _ _ (Finset.mem_union_left _ hx)
        exact List.filter_congr fun p _ => decide_and_not_subset hsub p.1

theorem expandAux_fringe_empty {fuel : Nat} {stones : List (Loc × Stone)}
    {c : Stone} {g : Finset Loc} (hw : ∃ p ∈ stones, p.1 ∈ g)
    (hf : stones.length ≤ fuel) :
    fringe (expandAux fuel stones c g).2 c (expandAux fuel stones c g).1 = ∅ := by
  induction fuel generalizing stones g with
  | zero =>
      obtain ⟨p, hp, _⟩ := hw
      have : 0 < stones.length := List.length_pos_of_mem hp
      omega
  | succ fuel ih =>
      unfold expandAux
      by_cases hn : fringe (stones.filter (fun p => p.1 ∉ g)) c g = ∅
      · simp only [hn, if_pos]
      · simp only [hn, if_neg, ite_false]
        obtain ⟨p0, hp0, hp0g⟩ := hw
        have hlt : (stones.filter (fun p => p.1 ∉ g)).length < stones.length :=
          length_filter_lt _ _ p0 hp0 (by simpa using hp0g)
        obtain ⟨x, hx⟩ := Finset.nonempty_iff_ne_empty.mpr hn
        obtain ⟨m, _, _, hxs⟩ := mem_fringe_iff.mp hx
        exact ih ⟨(x, c), hxs, Finset.mem_union_right _ hx⟩ (by omega)

theorem mem_neighbours_iff {l x : Loc} :
    x ∈ l.neighbours ↔
      ((0 < l.col ∧ x = ⟨l.col - 1, l.row⟩) ∨ x = ⟨l.col + 1, l.row⟩ ∨
       (0 < l.row ∧ x = ⟨l.col, l.row - 1⟩) ∨ x = ⟨l.col, l.row + 1⟩) := by
  unfold Loc.neighbours
  by_cases h1 : 0 < l.col <;> by_cases h2 : 0 < l.row <;> simp [h1, h2]

theorem Loc.adj_symm {a b : Loc} (h : Loc.adj a b) : Loc.adj b a := by
  obtain ⟨ac, ar⟩ := a
  obtain ⟨bc, br⟩ := b
  unfold Loc.adj at h ⊢
  rw [mem_neighbours_iff] at h ⊢
  simp only [Loc.mk.injEq] at h ⊢
  omega

theorem mem_group_neighbours_iff {g : Group} {x : Loc} :
    x ∈ g.neighbours ↔ (∃ m ∈ g.members, x ∈ m.neighbours) ∧ x ∉ g.members := by
  unfold Group.neighbours
  simp [Finset.mem_sdiff, Finset.mem_biUnion, List.mem_toFinset]

theorem connectedIn_mono {s t : Finset Loc} (hst : s ⊆ t) {a b : Loc}
    (h : ConnectedIn s a b) : ConnectedIn t a b :=
  Relation.ReflTransGen.mono (fun _ _ hab => ⟨hst hab.1, hab.2⟩) h

theorem connected_union {g n : Finset Loc}
    (hg : ∀ x ∈ g, ∀ y ∈ g, ConnectedIn g x y)
    (hn : ∀ x ∈ n, ∃ m ∈ g, Loc.adj m x) :
    ∀ x ∈ g ∪ n, ∀ y ∈ g ∪ n, ConnectedIn (g ∪ n) x y := by
  have reach : ∀ x ∈ g, ∀ y ∈ g ∪ n, ConnectedIn (g ∪ n) x y := by
    intro x hx y hy
    rcases Finset.mem_union.mp hy with hyg | hyn
    · exact connectedIn_mono (Finset.subset_union_left) (hg x hx y hyg)
    · obtain ⟨m, hm, hadj⟩ := hn y hyn
      exact Relation.ReflTransGen.tail
        (connectedIn_mono (Finset.subset_union_left) (hg x hx m hm))
        ⟨Finset.mem_union_right _ hyn, hadj⟩
  intro x hx y hy
  rcases Finset.mem_union.mp hx with hxg | hxn
  · exact reach x hxg y hy
  · obtain ⟨m, hm, hadj⟩ := hn x hxn
    exact Relation.ReflTransGen.head
      ⟨Finset.mem_union_left _ hm, Loc.adj_symm hadj⟩ (reach m hm y hy)

theorem expandAux_connected {fuel : Nat} {stones : List (Loc × Stone)} {c : Stone}
    {g : Finset Loc} (hg : ∀ x ∈ g, ∀ y ∈ g, ConnectedIn g x y) :
    ∀ x ∈ (expandAux fuel stones c g).1, ∀ y ∈ (expandAux fuel stones c g).1,
      ConnectedIn (expandAux fuel stones c g).1 x y := by
  induction fuel generalizing stones g with
  | zero => exact hg
  | succ fuel ih =>
      unfold expandAux
      by_cases hfr : fringe (stones.filter (fun p => p.1 ∉ g)) c g = ∅
      · simp only [hfr, if_pos]
        exact hg
      · simp only [hfr, if_neg, ite_false]
        apply ih
        apply connected_union hg
        intro x hx
        obtain ⟨m, hm, hxm, _⟩ := mem_fringe_iff.mp hx
        exact ⟨m, hm, hxm⟩

theorem mem_groupListAux_pairs {fuel : Nat} {stones : List (Loc × Stone)}
    {g : Group} (hg : g ∈ groupListAux fuel stones) :
    ∀ x ∈ g.members, (x, g.colour) ∈ stones := by
  induction fuel generalizing stones with
  | zero => cases hg
  | succ fuel ih =>
      cases stones with
      | nil => cases hg
      | cons p rest =>
          obtain ⟨l, c⟩ := p
          simp only [groupListAux, List.mem_cons] at hg
          rcases hg with rfl | hg
          · intro x hx
            rcases mem_expandAux hx with h1 | h1
            · rw [Finset.mem_singleton] at h1
              subst h1
              exact List.mem_cons_self _ _
            · exact h1
          · intro x hx
            have h2 := ih hg x hx
            rw [rest_expandAux] at h2
            exact List.mem_of_mem_filter h2

theorem groupListAux_nonempty {fuel : Nat} {stones : List (Loc × Stone)}
    {g : Group} (hg : g ∈ groupListAux fuel stones) : g.members.Nonempty := by
  induction fuel generalizing stones with
  | zero => cases hg
  | succ fuel ih =>
      cases stones with
      | nil => cases hg
      | cons p rest =>
          obtain ⟨l, c⟩ := p
          simp only [groupListAux, List.mem_cons] at hg
          rcases hg with rfl | hg
          · exact ⟨l, subset_expandAux _ _ _ _ (Finset.mem_singleton_self l)⟩
          · exact ih hg

theorem groupListAux_connected {fuel : Nat} {stones : List (Loc × Stone)}
    {g : Group} (hg : g ∈ groupListAux fuel stones) :
    ∀ x ∈ g.members, ∀ y ∈ g.members, ConnectedIn g.members x y := by
  induction fuel generalizing stones with
  | zero => cases hg
  | succ fuel ih =>
      cases stones with
      | nil => cases hg
      | cons p rest =>
          obtain ⟨l, c⟩ := p
          simp only [groupListAux, List.mem_cons] at hg
          rcases hg with rfl | hg
          · apply expandAux_connected
            intro x hx y hy
            rw [Finset.mem_singleton] at hx hy
            subst hx
            subst hy
            exact Relation.ReflTransGen.refl
          · exact ih hg

theorem groupListAux_pairwise_disjoint (fuel : Nat) (stones : List (Loc × Stone)) :
    List.Pairwise (fun a b => ∀ x ∈ a.members, x ∉ b.members)
      (groupListAux fuel stones) := by
  induction fuel generalizing stones with
  | zero => exact List.Pairwise.nil
  | succ fuel ih =>
      cases stones with
      | nil => exact List.Pairwise.nil
      | cons p rest =>
          obtain ⟨l, c⟩ := p
          simp only [groupListAux]
          refine List.Pairwise.cons ?_ (ih _)
          intro g' hg' x hx hx'
          have h2 := mem_groupListAux_pairs hg' x hx'
          rw [rest_expandAux] at h2
          rw [List.mem_filter, decide_eq_true_eq] at h2
          exact h2.2 hx

theorem groupListAux_not_adjacent : ∀ (fuel : Nat) (stones : List (Loc × Stone)),
    stones.length ≤ fuel →
    ∀ {g g' : Group}, g ∈ groupListAux fuel stones → g' ∈ groupListAux fuel stones →
    g ≠ g' → g.colour = g'.colour → ∀ x ∈ g'.members, x ∉ g.neighbours := by
  intro fuel
  induction fuel with
  | zero =>
      intro stones _ g g' hg
      cases hg
  | succ fuel ih =>
      intro stones hf g g' hg hg' hne hc x hx hxn
      cases stones with
      | nil => cases hg
      | cons p rest =>
          obtain ⟨l, c⟩ := p
          have hinv : ∃ q ∈ (l, c) :: rest, q.1 ∈ ({l} : Finset Loc) :=
            ⟨(l, c), List.mem_cons_self _ _, Finset.mem_singleton_self l⟩
          have hemp := @expandAux_fringe_empty ((l, c) :: rest).length ((l, c) :: rest) c {l} hinv (Nat.le_refl _)
          have hlen : (expandAux ((l, c) :: rest).length ((l, c) :: rest) c {l}).2.length
              < ((l, c) :: rest).length := by
            rw [rest_expandAux]
            refine length_filter_lt _ _ (l, c) (List.mem_cons_self _ _) ?_
            simp only [decide_eq_true_eq, Decidable.not_not]
            exact subset_expandAux _ _ _ _ (Finset.mem_singleton_self l)
          simp only [groupListAux, List.mem_cons] at hg hg'
          rcases hg with rfl | hg <;> rcases hg' with rfl | hg'
          · exact hne rfl
          · -- g is the seed group, g' was emitted later from the remaining stones
            have hpair := mem_groupListAux_pairs hg' x hx
            rw [← hc] at hpair
            obtain ⟨⟨m, hm, hxm⟩, _⟩ := mem_group_neighbours_iff.mp hxn
            have : x ∈ fringe (expandAux ((l, c) :: rest).length ((l, c) :: rest) c {l}).2
                c (expandAux ((l, c) :: rest).length ((l, c) :: rest) c {l}).1 :=
              mem_fringe_iff.mpr ⟨m, hm, hxm, hpair⟩
            rw [hemp] at this
            exact absurd this (Finset.not_mem_empty x)
          · -- g' is the seed group, g was emitted later
            obtain ⟨⟨m, hm, hxm⟩, _⟩ := mem_group_neighbours_iff.mp hxn
            have hpair := mem_groupListAux_pairs hg m hm
            rw [hc] at hpair
            have : m ∈ fringe (expandAux ((l, c) :: rest).length ((l, c) :: rest) c {l}).2
                c (expandAux ((l, c) :: rest).length ((l, c) :: rest) c {l}).1 :=
              mem_fringe_iff.mpr ⟨x, hx, Loc.adj_symm hxm, hpair⟩
            rw [hemp] at this
            exact absurd this (Finset.not_mem_empty m)
          · exact ih _ (by omega) hg hg' hne hc x hx hxn

theorem groupListAux_covers : ∀ (fuel : Nat) (stones : List (Loc × Stone)),
    stones.length ≤ fuel →
    ∀ p ∈ stones, ∃ g ∈ groupListAux fuel stones, p.1 ∈ g.members := by
  intro fuel
  induction fuel with
  | zero =>
      intro stones hf p hp
      have : 0 < stones.length := List.length_pos_of_mem hp
      omega
  | succ fuel ih =>
      intro stones hf p hp
      cases stones with
      | nil => cases hp
      | cons q rest =>
          obtain ⟨l, c⟩ := q
          simp only [groupListAux]
          by_cases hmem :
              p.1 ∈ (expandAux ((l, c) :: rest).length ((l, c) :: rest) c {l}).1
          · exact ⟨⟨c, _⟩, List.mem_cons_self _ _, hmem⟩
          · have hlen : (expandAux ((l, c) :: rest).length ((l, c) :: rest) c {l}).2.length
                < ((l, c) :: rest).length := by
              rw [rest_expandAux]
              refine length_filter_lt _ _ (l, c) (List.mem_cons_self _ _) ?_
              simp only [decide_eq_true_eq, Decidable.not_not]
              exact subset_expandAux _ _ _ _ (Finset.mem_singleton_self l)
            have hp2 : p ∈ (expandAux ((l, c) :: rest).length ((l, c) :: rest) c {l}).2 := by
              rw [rest_expandAux]
              rw [List.mem_filter, decide_eq_true_eq]
              exact ⟨hp, hmem⟩
            obtain ⟨g, hg, hgx⟩ := ih _ (by omega) p hp2
            exact ⟨g, List.mem_cons_of_mem _ hg, hgx⟩

theorem groupListAux_fuel_stable : ∀ (f1 f2 : Nat) (stones : List (Loc × Stone)),
    stones.length ≤ f1 → stones.length ≤ f2 →
    groupListAux f1 stones = groupListAux f2 stones := by
  intro f1
  induction f1 with
  | zero =>
      intro f2 stones h1 _
      have : stones = [] := List.eq_nil_of_length_eq_zero (by omega)
      subst this
      cases f2 <;> rfl
  | succ f1 ih =>
      intro f2 stones h1 h2
      cases stones with
      | nil => cases f2 <;> rfl
      | cons p rest =>
          obtain ⟨l, c⟩ := p
          cases f2 with
          | zero => simp at h2
          | succ f2 =>
              simp only [groupListAux]
              have hlen : (expandAux ((l, c) :: rest).length ((l, c) :: rest) c {l}).2.length
                  < ((l, c) :: rest).length := by
                rw [rest_expandAux]
                refine length_filter_lt _ _ (l, c) (List.mem_cons_self _ _) ?_
                simp only [decide_eq_true_eq, Decidable.not_not]
                exact subset_expandAux _ _ _ _ (Finset.mem_singleton_self l)
              rw [ih f2 _ (by omega) (by omega)]

theorem groupListAux_length_le : ∀ (fuel : Nat) (stones : List (Loc × Stone)),
    (groupListAux fuel stones).length ≤ stones.length := by
  intro fuel
  induction fuel with
  | zero =>
      intro stones
      simp [groupListAux]
  | succ fuel ih =>
      intro stones
      cases stones with
      | nil => simp [groupListAux]
      | cons p rest =>
          obtain ⟨l, c⟩ := p
          simp only [groupListAux, List.length_cons]
          have hlen : (expandAux (rest.length + 1) ((l, c) :: rest) c {l}).2.length
              < rest.length + 1 := by
            rw [rest_expandAux]
            have hstep := length_filter_lt
              (fun p => decide
                (p.1 ∉ (expandAux (rest.length + 1) ((l, c) :: rest) c {l}).1))
              ((l, c) :: rest) (l, c) (List.mem_cons_self _ _) (by
                simp only [decide_eq_true_eq, Decidable.not_not]
                exact subset_expandAux _ _ _ _ (Finset.mem_singleton_self l))
            simpa using hstep
          have hle := ih (expandAux (rest.length + 1) ((l, c) :: rest) c {l}).2
          omega

theorem lookupLoc_eq_some_of_nodup {ps : List (Loc × Stone)}
    (hnd : (ps.map Prod.fst).Nodup) {l : Loc} {s : Stone} (h : (l, s) ∈ ps) :
    lookupLoc l ps = some s := by
  induction ps with
  | nil => cases h
  | cons p rest ih =>
      obtain ⟨k, v⟩ := p
      rw [List.map_cons, List.nodup_cons] at hnd
      rcases List.mem_cons.mp h with h1 | h1
      · injection h1 with h1a h1b
        subst h1a
        subst h1b
        simp [lookupLoc]
      · have hk : k ≠ l := by
          intro hkl
          subst hkl
          exact hnd.1 (List.mem_map.mpr ⟨(k, s), h1, rfl⟩)
        simp only [lookupLoc, if_neg hk]
        exact ih hnd.2 h1

/-- C9: the flood-fill group iterator terminates.  Run with fuel
`stones.length` (the definition of `groupList`), any additional fuel changes
nothing — the iterator has already reached its fixed point and yields nothing
further; the emitted sequence of groups is finite (at most one group per
stone) and the working set is fully consumed (every stone ends up in some
emitted group). -/
theorem groupIterator_terminates (stones : List (Loc × Stone)) :
    (∀ fuel, stones.length ≤ fuel → groupListAux fuel stones = groupList stones) ∧
    (groupList stones).length ≤ stones.length ∧
    (∀ p ∈ stones, ∃ g ∈ groupList stones, p.1 ∈ g.members) :=
  ⟨fun fuel hf => groupListAux_fuel_stable fuel stones.length stones hf (Nat.le_refl _),
   groupListAux_length_le stones.length stones,
   fun p hp => groupListAux_covers stones.length stones (Nat.le_refl _) p hp⟩

theorem groupIterator_terminates_witness :
    (([((⟨0, 0⟩ : Loc), Stone.black), (⟨1, 0⟩, Stone.black), (⟨3, 3⟩, Stone.white)]).length ≤ 99 ∧
      groupListAux 99 ([((⟨0, 0⟩ : Loc), Stone.black), (⟨1, 0⟩, Stone.black), (⟨3, 3⟩, Stone.white)]) =
        groupList ([((⟨0, 0⟩ : Loc), Stone.black), (⟨1, 0⟩, Stone.black), (⟨3, 3⟩, Stone.white)])) ∧
    (groupList ([((⟨0, 0⟩ : Loc), Stone.black), (⟨1, 0⟩, Stone.black), (⟨3, 3⟩, Stone.white)])).length ≤
      ([((⟨0, 0⟩ : Loc), Stone.black), (⟨1, 0⟩, Stone.black), (⟨3, 3⟩, Stone.white)]).length :=
  ⟨⟨by decide,
    (groupIterator_terminates
      ([((⟨0, 0⟩ : Loc), Stone.black), (⟨1, 0⟩, Stone.black), (⟨3, 3⟩, Stone.white)])).1 99 (by decide)⟩,
   (groupIterator_terminates
      ([((⟨0, 0⟩ : Loc), Stone.black), (⟨1, 0⟩, Stone.black), (⟨3, 3⟩, Stone.white)])).2.1⟩

/-- C5: for every board whose occupancy map has no duplicate keys (as a
`HashMap` guarantees), `groups(colour)` is a partition of that colour's
stones: every returned group carries the requested colour, is non-empty,
consists only of stones of that colour, and is connected through
horizontal/vertical adjacency; every stone of the colour lies in some
returned group; no two returned groups share a member; and no two distinct
returned groups are adjacent (maximality). -/
theorem groups_partition (b : Board) (colour : Stone)
    (hnd : (b.points.map Prod.fst).Nodup) :
    (∀ g ∈ b.groups colour, g.colour = colour ∧ g.members.Nonempty ∧
        (∀ x ∈ g.members, b.get x = some colour) ∧
        (∀ x ∈ g.members, ∀ y ∈ g.members, ConnectedIn g.members x y)) ∧
    (∀ l : Loc, b.get l = some colour → ∃ g ∈ b.groups colour, l ∈ g.members) ∧
    List.Pairwise (fun g g' => ∀ x ∈ g.members, x ∉ g'.members) (b.groups colour) ∧
    (∀ g ∈ b.groups colour, ∀ g' ∈ b.groups colour, g ≠ g' →
        ∀ x ∈ g'.members, x ∉ g.neighbours) := by
  have hcol : ∀ g ∈ b.groups colour, g.colour = colour := by
    intro g hg
    obtain ⟨x, hx⟩ := groupListAux_nonempty hg
    have hp := mem_groupListAux_pairs hg x hx
    rw [List.mem_filter, decide_eq_true_eq] at hp
    exact hp.2
  refine ⟨?_, ?_, ?_, ?_⟩
  · intro g hg
    refine ⟨hcol g hg, groupListAux_nonempty hg, ?_, groupListAux_connected hg⟩
    intro x hx
    have hp := mem_groupListAux_pairs hg x hx
    rw [List.mem_filter, decide_eq_true_eq] at hp
    rw [← hcol g hg]
    exact lookupLoc_eq_some_of_nodup hnd hp.1
  · intro l hl
    have hmem : (l, colour) ∈ b.points := mem_of_lookupLoc hl
    have hf : (l, colour) ∈ b.points.filter (fun p => p.2 = colour) := by
      rw [List.mem_filter, decide_eq_true_eq]
      exact ⟨hmem, rfl⟩
    exact groupListAux_covers _ _ (Nat.le_refl _) (l, colour) hf
  · exact groupListAux_pairwise_disjoint _ _
  · intro g hg g' hg' hne x hx
    exact groupListAux_not_adjacent _ _ (Nat.le_refl _) hg hg' hne
      ((hcol g hg).trans (hcol g' hg').symm) x hx

theorem groups_partition_witness :
    ((Board.mk 4 [(⟨1, 1⟩, Stone.black), (⟨1, 2⟩, Stone.black), (⟨2, 2⟩, Stone.black),
        (⟨2, 3⟩, Stone.black), (⟨1, 3⟩, Stone.white), (⟨2, 1⟩, Stone.white)]).points.map
        Prod.fst).Nodup ∧
    (∃ g ∈ (Board.mk 4 [(⟨1, 1⟩, Stone.black), (⟨1, 2⟩, Stone.black), (⟨2, 2⟩, Stone.black),
        (⟨2, 3⟩, Stone.black), (⟨1, 3⟩, Stone.white), (⟨2, 1⟩, Stone.white)]).groups
        Stone.black, (⟨1, 1⟩ : Loc) ∈ g.members) :=
  ⟨by decide,
   (groups_partition (Board.mk 4 [(⟨1, 1⟩, Stone.black), (⟨1, 2⟩, Stone.black),
      (⟨2, 2⟩, Stone.black), (⟨2, 3⟩, Stone.black), (⟨1, 3⟩, Stone.white),
      (⟨2, 1⟩, Stone.white)]) Stone.black (by decide)).2.1 ⟨1, 1⟩ (by decide)⟩

theorem liberties_eq_of_get_eq {b b' : Board} {g : Group} (hs : b'.size = b.size)
    (h : ∀ x ∈ g.neighbours, b'.get x = b.get x) :
    b'.liberties g = b.liberties g := by
  unfold Board.liberties
  ext x
  simp only [Finset.mem_filter, decide_eq_true_eq]
  constructor
  · rintro ⟨⟨hn, hval⟩, hget⟩
    refine ⟨⟨hn, ?_⟩, ?_⟩
    · unfold Board.validloc at hval ⊢
      omega
    · rw [← h x hn]
      exact hget
  · rintro ⟨⟨hn, hval⟩, hget⟩
    refine ⟨⟨hn, ?_⟩, ?_⟩
    · unfold Board.validloc at hval ⊢
      omega
    · rw [h x hn]
      exact hget

theorem liberties_removeGroup_of_not_adjacent {b : Board} {g g0 : Group}
    (hd : ∀ x ∈ g0.members, x ∉ g.neighbours) :
    (b.removeGroup g0).liberties g = b.liberties g := by
  apply liberties_eq_of_get_eq (size_removeGroup b g0)
  intro x hx
  rw [get_removeGroup]
  have : x ∉ g0.members := fun hc => hd x hc hx
  rw [if_neg this]

theorem captureOpposite_removes :
    ∀ (gs : List Group) (bb : Board) (g : Group), g ∈ gs →
    bb.liberties g = ∅ →
    (∀ g' ∈ gs, g' ≠ g → ∀ x ∈ g'.members, x ∉ g.neighbours) →
    ∀ x ∈ g.members, (Board.captureOpposite bb gs).get x = none := by
  intro gs
  induction gs with
  | nil =>
      intro bb g hg
      cases hg
  | cons g0 gs ih =>
      intro bb g hg hlib hnadj x hx
      unfold Board.captureOpposite
      by_cases hgg : g = g0
      · subst hgg
        rw [if_pos hlib]
        apply get_none_captureOpposite
        rw [get_removeGroup, if_pos hx]
      · have hgs : g ∈ gs := by
          rcases List.mem_cons.mp hg with h1 | h1
          · exact absurd h1 hgg
          · exact h1
        have hnadj' : ∀ g' ∈ gs, g' ≠ g → ∀ y ∈ g'.members, y ∉ g.neighbours :=
          fun g' hg' => hnadj g' (List.mem_cons_of_mem _ hg')
        by_cases hl0 : bb.liberties g0 = ∅
        · rw [if_pos hl0]
          have hstable : (bb.removeGroup g0).liberties g = bb.liberties g :=
            liberties_removeGroup_of_not_adjacent
              (hnadj g0 (List.mem_cons_self _ _) (fun hc => hgg hc.symm))
          exact ih _ g hgs (hstable.trans hlib) hnadj' x hx
        · rw [if_neg hl0]
          exact ih _ g hgs hlib hnadj' x hx

theorem captureSame_removes (loc : Loc) :
    ∀ (gs : List Group) (bb : Board) (g : Group), g ∈ gs → loc ∈ g.members →
    List.Pairwise (fun a b => ∀ x ∈ a.members, x ∉ b.members) gs →
    bb.liberties g = ∅ →
    ∀ x ∈ g.members, (Board.captureSame loc bb gs).get x = none := by
  intro gs
  induction gs with
  | nil =>
      intro bb g hg
      cases hg
  | cons g0 gs ih =>
      intro bb g hg hloc hp hlib x hx
      rw [List.pairwise_cons] at hp
      unfold Board.captureSame
      by_cases hgg : g = g0
      · subst hgg
        rw [if_pos hloc, if_pos hlib]
        apply get_none_captureSame
        rw [get_removeGroup, if_pos hx]
      · have hgs : g ∈ gs := by
          rcases List.mem_cons.mp hg with h1 | h1
          · exact absurd h1 hgg
          · exact h1
        have hl0 : loc ∉ g0.members := fun hc => hp.1 g hgs loc hc hloc
        rw [if_neg hl0]
        exact ih _ g hgs hloc hp.2 hlib x hx

theorem play_unfold (b : Board) (loc : Loc) (s : Stone)
    (hv : b.validloc loc) (he : b.get loc = none) :
    b.play loc s =
      (true,
        Board.captureSame loc
          (Board.captureOpposite (b.add loc s)
            ((groupList (b.add loc s).points).filter (fun g => ¬ g.colour = s)))
          ((groupList (b.add loc s).points).filter (fun g => g.colour = s))) := by
  unfold Board.play
  rw [if_neg (not_not_intro hv), he]
  simp only [Option.isSome_none, Bool.false_eq_true, if_false]

/-- C1: once the two preconditions hold, `play` tentatively places the stone,
then removes every member of every opposing-colour group whose liberty set on
the post-placement occupancy is empty; all these opposing captures happen in
the first capture pass, before the played stone's own group is examined by the
second pass (the result of `play` is literally the second pass applied to the
output of the first). -/
theorem play_captures_dead_opposing (b : Board) (loc : Loc) (s : Stone)
    (hv : b.validloc loc) (he : b.get loc = none) :
    b.play loc s =
      (true,
        Board.captureSame loc
          (Board.captureOpposite (b.add loc s)
            ((groupList (b.add loc s).points).filter (fun g => ¬ g.colour = s)))
          ((groupList (b.add loc s).points).filter (fun g => g.colour = s))) ∧
    ∀ g ∈ (groupList (b.add loc s).points).filter (fun g => ¬ g.colour = s),
      (b.add loc s).liberties g = ∅ →
      ∀ x ∈ g.members,
        (Board.captureOpposite (b.add loc s)
          ((groupList (b.add loc s).points).filter (fun g => ¬ g.colour = s))).get x =
          none := by
  refine ⟨play_unfold b loc s hv he, ?_⟩
  intro g hg hlib x hx
  refine captureOpposite_removes _ _ g hg hlib ?_ x hx
  intro g' hg' hne y hy
  rw [List.mem_filter, decide_eq_true_eq] at hg hg'
  exact groupListAux_not_adjacent _ _ (Nat.le_refl _) hg.1 hg'.1 (fun hc => hne hc.symm)
    (Stone.eq_of_ne_of_ne hg.2 hg'.2) y hy

theorem play_captures_dead_opposing_witness :
    ((Board.mk 2 [(⟨0, 0⟩, Stone.white), (⟨1, 0⟩, Stone.black)]).validloc ⟨0, 1⟩ ∧
      (Board.mk 2 [(⟨0, 0⟩, Stone.white), (⟨1, 0⟩, Stone.black)]).get ⟨0, 1⟩ = none) ∧
    (Board.captureOpposite
        ((Board.mk 2 [(⟨0, 0⟩, Stone.white), (⟨1, 0⟩, Stone.black)]).add ⟨0, 1⟩ Stone.black)
        ((groupList ((Board.mk 2 [(⟨0, 0⟩, Stone.white), (⟨1, 0⟩, Stone.black)]).add
            ⟨0, 1⟩ Stone.black).points).filter
          (fun g => ¬ g.colour = Stone.black))).get ⟨0, 0⟩ = none :=
  ⟨⟨by decide, by decide⟩,
   (play_captures_dead_opposing (Board.mk 2 [(⟨0, 0⟩, Stone.white), (⟨1, 0⟩, Stone.black)])
      ⟨0, 1⟩ Stone.black (by decide) (by decide)).2
     (Group.mk Stone.white {⟨0, 0⟩}) (by decide) (by decide) ⟨0, 0⟩ (by decide)⟩

/-- C2: once the two preconditions hold, `play` always returns `true`; and
after the opposing captures of the first pass, if the same-colour group
containing the played location has an empty liberty set against that
intermediate occupancy, every one of its members is removed from the final
board (the self-capture outcome). -/
theorem play_self_capture (b : Board) (loc : Loc) (s : Stone)
    (hv : b.validloc loc) (he : b.get loc = none) :
    (b.play loc s).1 = true ∧
    ∀ g ∈ groupList (b.add loc s).points, g.colour = s → loc ∈ g.members →
      (Board.captureOpposite (b.add loc s)
        ((groupList (b.add loc s).points).filter (fun g => ¬ g.colour = s))).liberties g =
        ∅ →
      ∀ x ∈ g.members, (b.play loc s).2.get x = none := by
  rw [play_unfold b loc s hv he]
  refine ⟨rfl, ?_⟩
  intro g hg hcol hloc hlib x hx
  refine captureSame_removes loc _ _ g ?_ hloc ?_ hlib x hx
  · rw [List.mem_filter, decide_eq_true_eq]
    exact ⟨hg, hcol⟩
  · exact List.Pairwise.sublist (List.filter_sublist _)
      (groupListAux_pairwise_disjoint _ _)

theorem play_self_capture_witness :
    ((Board.mk 3 [(⟨1, 0⟩, Stone.white), (⟨0, 1⟩, Stone.white)]).validloc ⟨0, 0⟩ ∧
      (Board.mk 3 [(⟨1, 0⟩, Stone.white), (⟨0, 1⟩, Stone.white)]).get ⟨0, 0⟩ = none) ∧
    ((Board.mk 3 [(⟨1, 0⟩, Stone.white), (⟨0, 1⟩, Stone.white)]).play
        ⟨0, 0⟩ Stone.black).1 = true ∧
    ((Board.mk 3 [(⟨1, 0⟩, Stone.white), (⟨0, 1⟩, Stone.white)]).play
        ⟨0, 0⟩ Stone.black).2.get ⟨0, 0⟩ = none :=
  ⟨⟨by decide, by decide⟩,
   (play_self_capture (Board.mk 3 [(⟨1, 0⟩, Stone.white), (⟨0, 1⟩, Stone.white)])
      ⟨0, 0⟩ Stone.black (by decide) (by decide)).1,
   (play_self_capture (Board.mk 3 [(⟨1, 0⟩, Stone.white), (⟨0, 1⟩, Stone.white)])
      ⟨0, 0⟩ Stone.black (by decide) (by decide)).2
     (Group.mk Stone.black {⟨0, 0⟩}) (by decide) (by decide) (by decide) (by decide)
     ⟨0, 0⟩ (by decide)⟩

theorem get_captureOpposite_cases (bb : Board) (gs : List Group) (x : Loc) :
    (Board.captureOpposite bb gs).get x = bb.get x ∨
    ((Board.captureOpposite bb gs).get x = none ∧ ∃ g ∈ gs, x ∈ g.members) := by
  induction gs generalizing bb with
  | nil => exact Or.inl rfl
  | cons g0 gs ih =>
      unfold Board.captureOpposite
      by_cases hl : bb.liberties g0 = ∅
      · rw [if_pos hl]
        by_cases hx : x ∈ g0.members
        · refine Or.inr ⟨get_none_captureOpposite ?_, g0, List.mem_cons_self _ _, hx⟩
          rw [get_removeGroup, if_pos hx]
        · rcases ih (bb.removeGroup g0) with h1 | ⟨h1, g, hg, hgx⟩
          · left
            rw [h1, get_removeGroup, if_neg hx]
          · exact Or.inr ⟨h1, g, List.mem_cons_of_mem _ hg, hgx⟩
      · rw [if_neg hl]
        rcases ih bb with h1 | ⟨h1, g, hg, hgx⟩
        · exact Or.inl h1
        · exact Or.inr ⟨h1, g, List.mem_cons_of_mem _ hg, hgx⟩

theorem get_captureSame_cases (loc : Loc) (bb : Board) (gs : List Group) (x : Loc) :
    (Board.captureSame loc bb gs).get x = bb.get x ∨
    ((Board.captureSame loc bb gs).get x = none ∧
      ∃ g ∈ gs, x ∈ g.members ∧ loc ∈ g.members) := by
  induction gs generalizing bb with
  | nil => exact Or.inl rfl
  | cons g0 gs ih =>
      unfold Board.captureSame
      by_cases hloc : loc ∈ g0.members
      · by_cases hl : bb.liberties g0 = ∅
        · rw [if_pos hloc, if_pos hl]
          by_cases hx : x ∈ g0.members
          · refine Or.inr ⟨get_none_captureSame ?_, g0, List.mem_cons_self _ _, hx, hloc⟩
            rw [get_removeGroup, if_pos hx]
          · rcases ih (bb.removeGroup g0) with h1 | ⟨h1, g, hg, hgx, hgl⟩
            · left
              rw [h1, get_removeGroup, if_neg hx]
            · exact Or.inr ⟨h1, g, List.mem_cons_of_mem _ hg, hgx, hgl⟩
        · rw [if_pos hloc, if_neg hl]
          rcases ih bb with h1 | ⟨h1, g, hg, hgx, hgl⟩
          · exact Or.inl h1
          · exact Or.inr ⟨h1, g, List.mem_cons_of_mem _ hg, hgx, hgl⟩
      · rw [if_neg hloc]
        rcases ih bb with h1 | ⟨h1, g, hg, hgx, hgl⟩
        · exact Or.inl h1
        · exact Or.inr ⟨h1, g, List.mem_cons_of_mem _ hg, hgx, hgl⟩

theorem nodup_points_add {b : Board} (hnd : (b.points.map Prod.fst).Nodup)
    (l : Loc) (s : Stone) : ((b.add l s).points.map Prod.fst).Nodup := by
  unfold Board.add
  rw [List.map_cons, List.nodup_cons]
  constructor
  · intro hc
    rw [List.mem_map] at hc
    obtain ⟨p, hp, hpl⟩ := hc
    rw [List.mem_filter, decide_eq_true_eq] at hp
    exact hp.2 hpl
  · exact List.Nodup.sublist (List.Sublist.map _ (List.filter_sublist _)) hnd

theorem pairwise_disjoint_unique {gs : List Group}
    (hp : List.Pairwise (fun a b => ∀ x ∈ a.members, x ∉ b.members) gs)
    {g g' : Group} (hg : g ∈ gs) (hg' : g' ∈ gs) {x : Loc}
    (hx : x ∈ g.members) (hx' : x ∈ g'.members) : g = g' := by
  induction gs with
  | nil => cases hg
  | cons a l ih =>
      rw [List.pairwise_cons] at hp
      rcases List.mem_cons.mp hg with rfl | hgl
      · rcases List.mem_cons.mp hg' with rfl | hgl'
        · rfl
        · exact absurd hx' (hp.1 g' hgl' x hx)
      · rcases List.mem_cons.mp hg' with rfl | hgl'
        · exact absurd hx (hp.1 g hgl x hx')
        · exact ih hp.2 hgl hgl'

/-- C10: a successful `play` (preconditions satisfied, occupancy keys unique
as a `HashMap` guarantees) changes only the played location (empty to the
played colour, when the played group survives) and the members of removed
groups (stone to empty); no point ever changes from one colour to another in
place, and every same-coloured group of the post-placement partition that
does not contain the played location keeps every one of its stones — even a
zero-liberty one built by setup `add` calls. -/
theorem play_frame (b : Board) (loc : Loc) (s : Stone)
    (hv : b.validloc loc) (he : b.get loc = none)
    (hnd : (b.points.map Prod.fst).Nodup) :
    (∀ x : Loc, (b.play loc s).2.get x ≠ b.get x →
        (x = loc ∧ b.get loc = none ∧ (b.play loc s).2.get x = some s) ∨
        ((b.play loc s).2.get x = none ∧ b.get x ≠ none ∧ x ≠ loc)) ∧
    (∀ g ∈ groupList (b.add loc s).points, g.colour = s → loc ∉ g.members →
        ∀ x ∈ g.members, (b.play loc s).2.get x = some s) := by
  simp only [play_unfold b loc s hv he]
  constructor
  · intro x hne
    have H3 := get_captureSame_cases loc
      (Board.captureOpposite (b.add loc s)
        ((groupList (b.add loc s).points).filter (fun g => ¬ g.colour = s)))
      ((groupList (b.add loc s).points).filter (fun g => g.colour = s)) x
    have H2 := get_captureOpposite_cases (b.add loc s)
      ((groupList (b.add loc s).points).filter (fun g => ¬ g.colour = s)) x
    have Hadd := get_add b loc s x
    by_cases hxl : x = loc
    · subst hxl
      rw [if_pos rfl] at Hadd
      rcases H3 with h3 | ⟨h3, _⟩
      · rcases H2 with h2 | ⟨h2, _⟩
        · exact Or.inl ⟨rfl, he, by rw [h3, h2, Hadd]⟩
        · exact absurd (by rw [h3, h2, he]) hne
      · exact absurd (by rw [h3, he]) hne
    · rw [if_neg hxl] at Hadd
      rcases H3 with h3 | ⟨h3, _⟩
      · rcases H2 with h2 | ⟨h2, _⟩
        · exact absurd (by rw [h3, h2, Hadd]) hne
        · refine Or.inr ⟨by rw [h3, h2], ?_, hxl⟩
          intro h0
          exact hne (by rw [h3, h2, h0])
      · refine Or.inr ⟨h3, ?_, hxl⟩
        intro h0
        exact hne (by rw [h3, h0])
  · intro g hg hcol hloc x hx
    have hxl : x ≠ loc := fun hc => hloc (hc ▸ hx)
    have hnd1 : ((b.add loc s).points.map Prod.fst).Nodup := nodup_points_add hnd loc s
    have hxs : (x, s) ∈ (b.add loc s).points := by
      have hp := mem_groupListAux_pairs hg x hx
      rwa [hcol] at hp
    have hb1x : (b.add loc s).get x = some s := lookupLoc_eq_some_of_nodup hnd1 hxs
    have hpw := groupListAux_pairwise_disjoint
      ((b.add loc s).points.length) ((b.add loc s).points)
    rcases get_captureOpposite_cases (b.add loc s)
        ((groupList (b.add loc s).points).filter (fun g => ¬ g.colour = s)) x with
      h2 | ⟨_, g2, hg2, hx2⟩
    · rcases get_captureSame_cases loc
          (Board.captureOpposite (b.add loc s)
            ((groupList (b.add loc s).points).filter (fun g => ¬ g.colour = s)))
          ((groupList (b.add loc s).points).filter (fun g => g.colour = s)) x with
        h3 | ⟨_, g3, hg3, hx3, hl3⟩
      · rw [h3, h2, hb1x]
      · have hgg3 : g = g3 :=
          pairwise_disjoint_unique hpw hg (List.mem_of_mem_filter hg3) hx hx3
        exact absurd (hgg3 ▸ hl3) hloc
    · have hgg2 : g = g2 :=
        pairwise_disjoint_unique hpw hg (List.mem_of_mem_filter hg2) hx hx2
      rw [List.mem_filter, decide_eq_true_eq] at hg2
      exact absurd (hgg2 ▸ hcol) hg2.2

theorem play_frame_witness :
    ((Board.mk 3 [(⟨2, 2⟩, Stone.black), (⟨1, 0⟩, Stone.white)]).validloc ⟨0, 0⟩ ∧
      (Board.mk 3 [(⟨2, 2⟩, Stone.black), (⟨1, 0⟩, Stone.white)]).get ⟨0, 0⟩ = none ∧
      ((Board.mk 3 [(⟨2, 2⟩, Stone.black), (⟨1, 0⟩, Stone.white)]).points.map
        Prod.fst).Nodup) ∧
    ((Board.mk 3 [(⟨2, 2⟩, Stone.black), (⟨1, 0⟩, Stone.white)]).play
        ⟨0, 0⟩ Stone.black).2.get ⟨2, 2⟩ = some Stone.black :=
  ⟨⟨by decide, by decide, by decide⟩,
   (play_frame (Board.mk 3 [(⟨2, 2⟩, Stone.black), (⟨1, 0⟩, Stone.white)])
      ⟨0, 0⟩ Stone.black (by decide) (by decide) (by decide)).2
     (Group.mk Stone.black {⟨2, 2⟩}) (by decide) (by decide) (by decide)
     ⟨2, 2⟩ (by decide)⟩

/-- C8: every board reachable through the mutating interface (`new`, in-bounds
setup `add`, `remove`, `play`; the read-only operations do not produce
boards) keeps every occupancy key strictly inside the square `[0, size)²`;
consequently `get` returns `none` on any out-of-range location. -/
theorem reachable_bounds (b : Board) (h : Reachable b) :
    (∀ p ∈ b.points, p.1.col < b.size ∧ p.1.row < b.size) ∧
    (∀ l : Loc, b.size ≤ l.col ∨ b.size ≤ l.row → b.get l = none) := by
  have main : ∀ p ∈ b.points, p.1.col < b.size ∧ p.1.row < b.size := by
    induction h with
    | new size =>
        intro p hp
        cases hp
    | add b0 l s hb hv ih =>
        intro p hp
        unfold Board.add at hp
        rcases List.mem_cons.mp hp with rfl | hp2
        · exact ⟨hv.2, hv.1⟩
        · exact ih p (List.mem_of_mem_filter hp2)
    | remove b0 l hb ih =>
        intro p hp
        unfold Board.remove at hp
        exact ih p (List.mem_of_mem_filter hp)
    | play b0 l s hb ih =>
        by_cases hv : b0.validloc l
        · by_cases hocc : (b0.get l).isSome
          · have heq : b0.play l s = (false, b0) := by
              unfold Board.play
              rw [if_neg (not_not_intro hv), if_pos hocc]
            rw [heq]
            exact ih
          · have he : b0.get l = none := by
              cases hx : b0.get l with
              | none => rfl
              | some v => exact absurd (by rw [hx]; rfl) hocc
            simp only [play_unfold b0 l s hv he]
            intro p hp
            have hp2 := mem_points_captureOpposite (mem_points_captureSame hp)
            have hsz : (Board.captureSame l
                (Board.captureOpposite (b0.add l s)
                  ((groupList (b0.add l s).points).filter (fun g => ¬ g.colour = s)))
                ((groupList (b0.add l s).points).filter (fun g => g.colour = s))).size =
                b0.size := by
              rw [size_captureSame, size_captureOpposite, size_add]
            rw [hsz]
            unfold Board.add at hp2
            rcases List.mem_cons.mp hp2 with rfl | hp3
            · exact ⟨hv.2, hv.1⟩
            · exact ih p (List.mem_of_mem_filter hp3)
        · have heq : b0.play l s = (false, b0) := by
            unfold Board.play
            rw [if_pos hv]
          rw [heq]
          exact ih
  refine ⟨main, ?_⟩
  intro l hl
  cases hg : b.get l with
  | none => rfl
  | some s =>
      have hm := mem_of_lookupLoc hg
      have hb := main (l, s) hm
      simp only at hb
      omega

theorem reachable_bounds_witness :
    Reachable ((Board.newWithSize 5).add ⟨1, 1⟩ Stone.black) ∧
    ((Board.newWithSize 5).add ⟨1, 1⟩ Stone.black).get ⟨7, 2⟩ = none :=
  ⟨Reachable.add _ ⟨1, 1⟩ Stone.black (Reachable.new 5) (by decide),
   (reachable_bounds _ (Reachable.add _ ⟨1, 1⟩ Stone.black (Reachable.new 5)
      (by decide))).2 ⟨7, 2⟩ (by decide)⟩

/-- C4 counterexample: in the spec's concrete 5×5 scenario, the White move at
(0,1) does NOT capture nothing — it captures the Black stone at (0,0), which
was present before that move and gone after it (the `play` test in
src/board.rs marks this move `// capture`); consequently the final Black move
at (0,0) also captures the White stone at (0,1), not just the two at (1,0)
and (1,1). -/
theorem spec_scenario_counterexample :
    (playMoves (Board.newWithSize 5) (specScenarioMoves.take 4)).get ⟨0, 0⟩ =
      some Stone.black ∧
    (playMoves (Board.newWithSize 5) (specScenarioMoves.take 5)).get ⟨0, 0⟩ = none ∧
    (playMoves (Board.newWithSize 5) specScenarioMoves).get ⟨0, 1⟩ = none := by
  decide

/-- C4 amended: starting from an empty 5×5 board, the scenario's plays succeed
except the repeated (0,0); the White move at (0,1) captures the black stone at
(0,0) — before it (0,0) held Black, afterwards it is empty while (0,1) holds
White; the final Black move at (0,0) captures exactly the three white stones
at (1,0), (1,1) and (0,1), which formed one group whose only liberty was
(0,0); the final position is the one asserted by the `play` test. -/
theorem spec_scenario_amended :
    playFlags (Board.newWithSize 5) specScenarioMoves =
      [true, false, true, true, true, true, true, true, true, true, true, true] ∧
    (playMoves (Board.newWithSize 5) (specScenarioMoves.take 4)).get ⟨0, 0⟩ =
      some Stone.black ∧
    (playMoves (Board.newWithSize 5) (specScenarioMoves.take 5)).get ⟨0, 0⟩ = none ∧
    (playMoves (Board.newWithSize 5) (specScenarioMoves.take 5)).get ⟨0, 1⟩ =
      some Stone.white ∧
    (Group.mk Stone.white {⟨0, 1⟩, ⟨1, 0⟩, ⟨1, 1⟩} ∈
      ((playMoves (Board.newWithSize 5) (specScenarioMoves.take 11)).groups Stone.white :
        List Group)) ∧
    (playMoves (Board.newWithSize 5) (specScenarioMoves.take 11)).liberties
        (Group.mk Stone.white {⟨0, 1⟩, ⟨1, 0⟩, ⟨1, 1⟩}) = {⟨0, 0⟩} ∧
    (playMoves (Board.newWithSize 5) specScenarioMoves).get ⟨0, 0⟩ = some Stone.black ∧
    (playMoves (Board.newWithSize 5) specScenarioMoves).get ⟨0, 1⟩ = none ∧
    (playMoves (Board.newWithSize 5) specScenarioMoves).get ⟨1, 0⟩ = none ∧
    (playMoves (Board.newWithSize 5) specScenarioMoves).get ⟨1, 1⟩ = none ∧
    boardToLines (playMoves (Board.newWithSize 5) specScenarioMoves) =
      [". . . . . ".toList, ". . . O . ".toList, "# # . O . ".toList,
       ". . # . . ".toList, "# . # . . ".toList] := by
  decide

theorem charCell_stoneChar : ∀ v : Option Stone, charCell (stoneChar v) = some v := by
  intro v
  cases v with
  | none => decide
  | some s => cases s <;> decide

theorem filterMap_renderLine (f : Nat → Option Stone) (xs : List Nat) :
    (xs.flatMap (fun col => [stoneChar (f col), ' '])).filterMap charCell =
      xs.map f := by
  induction xs with
  | nil => rfl
  | cons a t ih =>
      rw [List.flatMap_cons, List.filterMap_append, ih]
      rw [List.filterMap_cons, List.filterMap_cons, charCell_stoneChar]
      rfl

theorem foldr_max_replicate (n k : Nat) :
    List.foldr max 0 (List.replicate n k) = if n = 0 then 0 else k := by
  induction n with
  | zero => rfl
  | succ n ih =>
      rw [List.replicate_succ, List.foldr_cons, ih]
      cases n with
      | zero => simp
      | succ m => simp

theorem size_addRowCells (sz rnum : Nat) :
    ∀ (cells : List (Option Stone)) (b : Board) (c0 : Nat),
    (addRowCells sz rnum b c0 cells).size = b.size := by
  intro cells
  induction cells with
  | nil =>
      intro b c0
      rfl
  | cons cell rest ih =>
      intro b c0
      unfold addRowCells
      rw [ih]
      cases cell <;> rfl

theorem size_addRows (sz : Nat) :
    ∀ (rows : List (List (Option Stone))) (b : Board) (rnum : Nat),
    (addRows sz b rnum rows).size = b.size := by
  intro rows
  induction rows with
  | nil =>
      intro b rnum
      rfl
  | cons row rest ih =>
      intro b rnum
      unfold addRows
      rw [ih, size_addRowCells]

theorem get_addRowCells (sz rnum : Nat) (g : Nat → Option Stone) :
    ∀ (k c0 : Nat) (b0 : Board) (x : Loc),
    (addRowCells sz rnum b0 c0 ((List.range' c0 k).map g)).get x =
      if x.row = sz - 1 - rnum ∧ c0 ≤ x.col ∧ x.col < c0 + k ∧ (g x.col).isSome
      then g x.col else b0.get x := by
  intro k
  induction k with
  | zero =>
      intro c0 b0 x
      rw [if_neg]
      · rfl
      · rintro ⟨_, h1, h2, _⟩
        omega
  | succ k ih =>
      intro c0 b0 x
      rw [List.range'_succ, List.map_cons]
      unfold addRowCells
      rw [ih]
      by_cases hwin : x.row = sz - 1 - rnum ∧ c0 + 1 ≤ x.col ∧ x.col < c0 + 1 + k ∧
          (g x.col).isSome
      · rw [if_pos hwin, if_pos ⟨hwin.1, by omega, by omega, hwin.2.2.2⟩]
      · rw [if_neg hwin]
        cases hc : g c0 with
        | some s =>
            simp only
            rw [get_add]
            by_cases hx : x = (⟨c0, sz - 1 - rnum⟩ : Loc)
            · rw [if_pos hx]
              have hxc : x.col = c0 := by rw [hx]
              have hxr : x.row = sz - 1 - rnum := by rw [hx]
              rw [if_pos ⟨hxr, by omega, by omega, by rw [hxc, hc]; rfl⟩, hxc, hc]
            · rw [if_neg hx, if_neg]
              rintro ⟨h1, h2, h3, h4⟩
              obtain ⟨xc, xr⟩ := x
              simp only at h1 h2 h3 h4 hwin hx
              have hxc : xc = c0 := by
                by_contra hne
                exact hwin ⟨h1, by omega, by omega, h4⟩
              exact hx (by rw [hxc, h1])
        | none =>
            simp only
            rw [if_neg]
            rintro ⟨h1, h2, h3, h4⟩
            by_cases hxc : x.col = c0
            · rw [hxc, hc] at h4
              exact Bool.noConfusion h4
            · exact hwin ⟨h1, by omega, by omega, h4⟩

theorem get_addRows (sz : Nat) (f : Loc → Option Stone) :
    ∀ (m rnum : Nat) (b0 : Board) (x : Loc),
    rnum + m ≤ sz →
    (∀ y : Loc, rnum ≤ sz - 1 - y.row ∨ sz ≤ y.row → b0.get y = none) →
    (addRows sz b0 rnum ((List.range' rnum m).map
        (fun r => (List.range sz).map (fun c => f ⟨c, sz - 1 - r⟩)))).get x =
      if x.row < sz ∧ x.col < sz ∧ rnum ≤ sz - 1 - x.row ∧ sz - 1 - x.row < rnum + m
      then f x else b0.get x := by
  intro m
  induction m with
  | zero =>
      intro rnum b0 x _ _
      rw [if_neg]
      · rfl
      · rintro ⟨_, _, h3, h4⟩
        omega
  | succ m ih =>
      intro rnum b0 x hm h0
      rw [List.range'_succ, List.map_cons]
      unfold addRows
      have hrow := get_addRowCells sz rnum (fun c => f ⟨c, sz - 1 - rnum⟩) sz 0
      rw [← List.range_eq_range'] at hrow
      have h0' : ∀ y : Loc, rnum + 1 ≤ sz - 1 - y.row ∨ sz ≤ y.row →
          (addRowCells sz rnum b0 0
            ((List.range sz).map (fun c => f ⟨c, sz - 1 - rnum⟩))).get y = none := by
        intro y hy
        rw [hrow b0 y, if_neg]
        · exact h0 y (by omega)
        · rintro ⟨h1, _, _, _⟩
          omega
      rw [ih (rnum + 1) _ x (by omega) h0']
      by_cases hlater : x.row < sz ∧ x.col < sz ∧ rnum + 1 ≤ sz - 1 - x.row ∧
          sz - 1 - x.row < rnum + 1 + m
      · rw [if_pos hlater, if_pos ⟨hlater.1, hlater.2.1, by omega, by omega⟩]
      · rw [if_neg hlater, hrow b0 x]
        by_cases hmatch : x.row = sz - 1 - rnum ∧ x.col < sz
        · have hxrow : x.row < sz := by omega
          have hxwin : sz - 1 - x.row = rnum := by omega
          have hov : x.row < sz ∧ x.col < sz ∧ rnum ≤ sz - 1 - x.row ∧
              sz - 1 - x.row < rnum + (m + 1) := ⟨hxrow, hmatch.2, by omega, by omega⟩
          have hxeq : (⟨x.col, sz - 1 - rnum⟩ : Loc) = x := by
            obtain ⟨xc, xr⟩ := x
            simp only at hmatch ⊢
            rw [hmatch.1]
          rw [hxeq]
          cases hs : (f x).isSome
          · rw [if_neg]
            · rw [if_pos hov, h0 x (Or.inl (by omega))]
              cases hfx : f x with
              | none => rfl
              | some v =>
                  rw [hfx] at hs
                  exact Bool.noConfusion hs
            · rintro ⟨_, _, _, h4⟩
              exact Bool.noConfusion h4
          · rw [if_pos ⟨hmatch.1, Nat.zero_le _, by omega, rfl⟩, if_pos hov]
        · rw [if_neg, if_neg]
          · rintro ⟨h1, h2, h3, h4⟩
            have h5 : ¬(rnum + 1 ≤ sz - 1 - x.row ∧ sz - 1 - x.row < rnum + 1 + m) :=
              fun hc => hlater ⟨h1, h2, hc.1, hc.2⟩
            rcases Nat.lt_or_ge (sz - 1 - x.row) (rnum + 1) with hlt | hge
            · exact hmatch ⟨by omega, h2⟩
            · exact h5 ⟨hge, by omega⟩
          · rintro ⟨h1, _, h3, h4⟩
            exact hmatch ⟨h1, by omega⟩

theorem get_newWithSize (n : Nat) (x : Loc) : (Board.newWithSize n).get x = none := rfl

/-- C6: serialising a board (rows printed from the highest row index down to
row 0) and deserialising the resulting text (first line mapped back to the
highest row index) reproduces the board exactly: same size, identical
occupancy at every location — provided the board's occupancy respects its own
bounds invariant. -/
theorem round_trip (b : Board)
    (hb : ∀ p ∈ b.points, p.1.col < b.size ∧ p.1.row < b.size) :
    (boardFromLines (boardToLines b)).size = b.size ∧
    ∀ l : Loc, (boardFromLines (boardToLines b)).get l = b.get l := by
  have hlayout : (boardToLines b).map (fun l => l.filterMap charCell) =
      (List.range b.size).map
        (fun row => (List.range b.size).map (fun col => b.get ⟨col, b.size - 1 - row⟩)) := by
    unfold boardToLines
    rw [List.map_map]
    apply List.map_congr_left
    intro row _
    simp only [Function.comp]
    rw [filterMap_renderLine (fun col => b.get ⟨col, b.size - row - 1⟩)]
    apply List.map_congr_left
    intro col _
    have : b.size - row - 1 = b.size - 1 - row := by omega
    rw [this]
  have hlens : ((List.range b.size).map
      (fun row => (List.range b.size).map
        (fun col => b.get ⟨col, b.size - 1 - row⟩))).map List.length =
      List.replicate b.size b.size := by
    rw [List.map_map]
    have : (List.length ∘ fun row => (List.range b.size).map
        (fun col => b.get ⟨col, b.size - 1 - row⟩)) = fun _ => b.size := by
      funext row
      simp [List.length_map, List.length_range]
    rw [this, List.map_const', List.length_range]
  have hsz : max (List.foldr max 0 (((List.range b.size).map
      (fun row => (List.range b.size).map
        (fun col => b.get ⟨col, b.size - 1 - row⟩))).map List.length))
      ((List.range b.size).map
        (fun row => (List.range b.size).map
          (fun col => b.get ⟨col, b.size - 1 - row⟩))).length = b.size := by
    rw [hlens, foldr_max_replicate, List.length_map, List.length_range]
    cases b.size <;> simp
  have hbfl : boardFromLines (boardToLines b) =
      addRows b.size (Board.newWithSize b.size) 0
        ((List.range b.size).map
          (fun row => (List.range b.size).map
            (fun col => b.get ⟨col, b.size - 1 - row⟩))) := by
    simp only [boardFromLines]
    rw [hlayout, hsz]
  constructor
  · rw [hbfl, size_addRows]
    rfl
  · intro l
    rw [hbfl]
    have hmain := get_addRows b.size b.get b.size 0 (Board.newWithSize b.size) l
      (by omega) (fun y _ => get_newWithSize _ _)
    rw [← List.range_eq_range'] at hmain
    rw [hmain]
    by_cases hin : l.row < b.size ∧ l.col < b.size
    · rw [if_pos ⟨hin.1, hin.2, by omega, by omega⟩]
    · rw [if_neg, get_newWithSize]
      · cases hg : b.get l with
        | none => rfl
        | some s =>
            have hm := hb (l, s) (mem_of_lookupLoc hg)
            simp only at hm
            exact absurd ⟨hm.2, hm.1⟩ hin
      · rintro ⟨h1, h2, _, _⟩
        exact hin ⟨h1, h2⟩

theorem round_trip_witness :
    (∀ p ∈ (Board.mk 3 [(⟨0, 0⟩, Stone.black), (⟨2, 1⟩, Stone.white)]).points,
        p.1.col < (Board.mk 3 [(⟨0, 0⟩, Stone.black), (⟨2, 1⟩, Stone.white)]).size ∧
        p.1.row < (Board.mk 3 [(⟨0, 0⟩, Stone.black), (⟨2, 1⟩, Stone.white)]).size) ∧
    (boardFromLines (boardToLines
        (Board.mk 3 [(⟨0, 0⟩, Stone.black), (⟨2, 1⟩, Stone.white)]))).size = 3 ∧
    (boardFromLines (boardToLines
        (Board.mk 3 [(⟨0, 0⟩, Stone.black), (⟨2, 1⟩, Stone.white)]))).get ⟨0, 0⟩ =
      some Stone.black :=
  ⟨by decide,
   (round_trip (Board.mk 3 [(⟨0, 0⟩, Stone.black), (⟨2, 1⟩, Stone.white)])
      (by decide)).1,
   by
    rw [(round_trip (Board.mk 3 [(⟨0, 0⟩, Stone.black), (⟨2, 1⟩, Stone.white)])
      (by decide)).2 ⟨0, 0⟩]
    decide⟩

/-- C7: the neighbour-candidate sequence of a location contains `(col-1, row)`
iff `col > 0`, always contains `(col+1, row)`, contains `(col, row-1)` iff
`row > 0`, always contains `(col, row+1)`, and contains nothing else; the
candidates past the far edge are produced unconditionally (the sequence does
not depend on any board size). -/
theorem neighbours_characterisation (l : Loc) :
    (∀ x : Loc, x ∈ l.neighbours ↔
      ((0 < l.col ∧ x = ⟨l.col - 1, l.row⟩) ∨ x = ⟨l.col + 1, l.row⟩ ∨
       (0 < l.row ∧ x = ⟨l.col, l.row - 1⟩) ∨ x = ⟨l.col, l.row + 1⟩)) ∧
    (⟨l.col + 1, l.row⟩ : Loc) ∈ l.neighbours ∧
    (⟨l.col, l.row + 1⟩ : Loc) ∈ l.neighbours := by
  refine ⟨fun x => ?_, ?_, ?_⟩
  · unfold Loc.neighbours
    by_cases h1 : 0 < l.col <;> by_cases h2 : 0 < l.row <;>
      simp [h1, h2]
  · unfold Loc.neighbours
    by_cases h1 : 0 < l.col <;> simp [h1]
  · unfold Loc.neighbours
    by_cases h1 : 0 < l.col <;> by_cases h2 : 0 < l.row <;> simp [h1, h2]

/-- C3: a `play` whose location is out of bounds (column or row at least the
size) or already occupied returns `false` and the returned board is exactly
the input board — same occupancy, same size — for either colour. -/
theorem play_rejected_leaves_board (b : Board) (loc : Loc) (s : Stone)
    (h : b.size ≤ loc.col ∨ b.size ≤ loc.row ∨ (b.get loc).isSome) :
    b.play loc s = (false, b) := by
  unfold Board.play
  by_cases hv : b.validloc loc
  · rw [if_neg (by simpa using hv)]
    have hocc : (b.get loc).isSome := by
      rcases h with h1 | h1 | h1
      · exact absurd hv.2 (by omega)
      · exact absurd hv.1 (by omega)
      · exact h1
    rw [if_pos hocc]
  · rw [if_pos hv]

theorem play_rejected_witness :
    ((3 ≤ (⟨1, 1⟩ : Loc).col ∨ 3 ≤ (⟨1, 1⟩ : Loc).row ∨
        (((Board.newWithSize 3).add ⟨1, 1⟩ Stone.black).get ⟨1, 1⟩).isSome) ∧
      ((Board.newWithSize 3).add ⟨1, 1⟩ Stone.black).play ⟨1, 1⟩ Stone.white =
        (false, (Board.newWithSize 3).add ⟨1, 1⟩ Stone.black)) ∧
    ((5 ≤ (⟨7, 0⟩ : Loc).col ∨ 5 ≤ (⟨7, 0⟩ : Loc).row ∨
        ((Board.newWithSize 5).get ⟨7, 0⟩).isSome) ∧
      (Board.newWithSize 5).play ⟨7, 0⟩ Stone.black =
        (false, Board.newWithSize 5)) :=
  ⟨⟨by decide,
    play_rejected_leaves_board _ _ _ (by decide)⟩,
   ⟨by decide,
    play_rejected_leaves_board _ _ _ (by decide)⟩⟩

end GoBoard
